import Mathlib

/-!
Verification development for the ig-trading-bot database maintenance module
(src/utils/database/functions.py together with src/utils/database/db.py).

The module is glue code over a relational store: symbol-directory reads,
symbol insertion, and delete-then-recompute backfill/aggregation operations.
We embed each Python function as a Lean function over explicit table states.
Machine-level details that the functions use are embedded as follows:

* timestamps (Python datetime values) become integers counting epoch seconds,
  which is all the code observes of them (comparisons and
  total_seconds() // 60);
* a table is a list of rows, in storage order; a SQL DELETE ... WHERE is a
  filter keeping the non-matching rows;
* the shared SQLAlchemy session is a pair of table states (last committed
  state, pending state); execute mutates pending, commit copies pending to
  committed, rollback copies committed back over pending;
* the external SQL recompute queries (the .sql files are opaque
  collaborators per the spec) are parameters of type
  rows to Except String rows: they either produce the new table contents or
  raise;
* Python exceptions become Except / Option values: an operation that
  re-raises returns the error alongside its final session state, and a
  swallow-and-log handler turns the error branch into an empty result;
* the external fetch collaborator get_stock_data is observed through the
  symbol list passed to it, which run_backfill_fact_stock_bars_api returns.
-/

/-- Modelled from the spec: the StockBar fact row (table fact_stock_bars).
The entity definitions live in utils/database/models.py, which is not among
the given sources; fields follow spec section 3: symbol, created_at,
is_imputed, plus OHLCV-style numeric fields that are not otherwise
constrained. -/
structure StockBarRow where
  symbol : String
  createdAt : Int
  isImputed : Bool
  priceOpen : Int := 0
  priceHigh : Int := 0
  priceLow : Int := 0
  priceClose : Int := 0
  volume : Int := 0
deriving DecidableEq

/-- Modelled from the spec: the StockBarAggregate row. Fields follow spec
section 3: symbol, created_at (window start), aggregation granularity, plus
aggregated numeric fields. -/
structure StockBarAggRow where
  symbol : String
  createdAt : Int
  aggregation : String
  priceOpen : Int := 0
  priceHigh : Int := 0
  priceLow : Int := 0
  priceClose : Int := 0
  volume : Int := 0
deriving DecidableEq

/-- One table as seen through the shared session: the last committed state
and the pending state the session currently sees. session.execute edits
pending, session.commit copies pending into committed, session.rollback
copies committed back over pending. -/
structure TxTable (α : Type) where
  committed : List α
  pending : List α
deriving DecidableEq

/-- Postgres DISTINCT ON (symbol) with no ORDER BY, as issued by
query.distinct(StockBar.symbol): one row per symbol. We model the row chosen
for each symbol as the first one in storage order; the claims only observe
the symbols. The seen accumulator holds symbols already emitted. -/
def distinctOnSymbolGo (seen : List String) : List StockBarRow → List StockBarRow
  | [] => []
  | r :: rest =>
    if r.symbol ∈ seen then distinctOnSymbolGo seen rest
    else r :: distinctOnSymbolGo (r.symbol :: seen) rest

/-- Embedding of get_active_symbols (functions.py lines 17-31). The try
block runs the DISTINCT ON query and projects symbol; the except handler
logs and returns the empty list. The argument carries the query outcome so
the failure branch is observable. -/
def get_active_symbols (queryResult : Except String (List StockBarRow)) : List String :=
  match queryResult with
  | .ok rows => (distinctOnSymbolGo [] rows).map (fun r => r.symbol)
  | .error _ => []

/-- Python string comparison (used by list.sort() on strings): lexicographic
on code points. Returns true when the first list is less than or equal to
the second. -/
def lexLe : List Char → List Char → Bool
  | [], _ => true
  | _ :: _, [] => false
  | a :: as, b :: bs => if a < b then true else if b < a then false else lexLe as bs

/-- Strict version of lexLe. -/
def lexLt : List Char → List Char → Bool
  | [], [] => false
  | [], _ :: _ => true
  | _ :: _, [] => false
  | a :: as, b :: bs => if a < b then true else if b < a then false else lexLt as bs

/-- Python <= on strings. -/
def strLe (a b : String) : Prop := lexLe a.data b.data = true

/-- Python < on strings. -/
def strLt (a b : String) : Prop := lexLt a.data b.data = true

instance : DecidableRel strLe := fun a b =>
  inferInstanceAs (Decidable (lexLe a.data b.data = true))

instance : DecidableRel strLt := fun a b =>
  inferInstanceAs (Decidable (lexLt a.data b.data = true))

/-- The grouping loop of load_stock_table_list (functions.py lines 49-53):
for each symbol of the sorted list, take symbol[0].upper() and append it to
the accumulator when not already present. Indexing symbol[0] of an empty
symbol raises IndexError, modelled as the error branch. -/
def groupByStartingLetter : List String → List String → Except Unit (List String)
  | [], grouped => .ok grouped
  | s :: rest, grouped =>
    match s.data with
    | [] => .error ()
    | c :: _ =>
      let startingLetter := String.mk [c.toUpper]
      groupByStartingLetter rest
        (if startingLetter ∈ grouped then grouped else grouped ++ [startingLetter])

/-- Embedding of load_stock_table_list (functions.py lines 34-62). Reads all
Stock symbols; when group_by is "alphabetical" it sorts them (list.sort())
and replaces the list by the grouped first letters. The except handler
catches any exception raised inside the try block (including the IndexError
from the grouping loop) and returns the empty list. -/
def load_stock_table_list (stocks : List String) (group_by : Option String := none) :
    List String :=
  if group_by == some "alphabetical" then
    match groupByStartingLetter (List.insertionSort strLe stocks) [] with
    | .ok grouped => grouped
    | .error _ => []
  else
    stocks

/-- Postgres LIKE matching with the default escape character backslash:
the percent sign matches any sequence, underscore matches any single
character, a backslash escapes the next pattern character. A percent in the
pattern matches when the rest of the pattern matches some suffix of the
string (List.tails enumerates the suffixes). -/
def likeMatch : List Char → List Char → Bool
  | [], s => s.isEmpty
  | '%' :: ps, s => s.tails.any (fun t => likeMatch ps t)
  | '_' :: _, [] => false
  | '_' :: ps, _ :: cs => likeMatch ps cs
  | ['\\'], _ => false
  | '\\' :: _ :: _, [] => false
  | '\\' :: q :: ps, c :: cs => q == c && likeMatch ps cs
  | _ :: _, [] => false
  | p :: ps, c :: cs => p == c && likeMatch ps cs

/-- Embedding of load_stock_starting_by (functions.py lines 65-85): filter
Stock symbols with Stock.symbol LIKE starting_letter + percent. The
starting_letter argument is interpolated into the LIKE pattern unescaped,
exactly as the f-string does. -/
def load_stock_starting_by (stocks : List String) (starting_letter : String) : List String :=
  stocks.filter (fun s => likeMatch (starting_letter.data ++ ['%']) s.data)

/-- Rendering of the spec words for load_stock_starting_by, for comparison:
a case-sensitive prefix match of the symbol against the argument. -/
def load_stock_starting_by_spec (stocks : List String) (starting_letter : String) :
    List String :=
  stocks.filter (fun s => starting_letter.data.isPrefixOf s.data)

/-- Rendering of the spec words for load_stock_table_list with alphabetical
grouping, for comparison: the sorted sequence of distinct uppercased
first-letter prefixes observed across symbols. -/
def alphabetical_spec (stocks : List String) : List String :=
  List.insertionSort strLe
    (((stocks.filterMap (fun s => s.data.head?)).map (fun c => String.mk [c.toUpper])).dedup)

/-- Embedding of insert_new_stocks (functions.py lines 88-102): INSERT INTO
dim_stocks the DISTINCT StockBar symbols that are NOT IN the current Stock
symbols, then commit. New rows append after the existing ones. -/
def insert_new_stocks (stockBars : List StockBarRow) (stocks : List String) : List String :=
  stocks ++ ((stockBars.map (fun r => r.symbol)).dedup.filter (fun s => !(decide (s ∈ stocks))))

/-- The DELETE of run_backfill_fact_stock_bars (functions.py lines 120-124):
remove StockBar rows with start_time <= created_at < end_time and
is_imputed true. -/
def fact_delete_step (start_time end_time : Int) (rows : List StockBarRow) :
    List StockBarRow :=
  rows.filter (fun r =>
    !(decide (start_time ≤ r.createdAt) && decide (r.createdAt < end_time) && r.isImputed))

/-- Embedding of run_backfill_fact_stock_bars (functions.py lines 105-139):
execute the delete, commit, execute the recompute SQL (an opaque
collaborator given as sql_query), commit; on an exception, rollback and
re-raise. Returns the final session state together with the re-raised
error, when any. -/
def run_backfill_fact_stock_bars
    (sql_query : List StockBarRow → Except String (List StockBarRow))
    (start_time end_time : Int) (tx : TxTable StockBarRow) :
    TxTable StockBarRow × Option String :=
  let deleted := fact_delete_step start_time end_time tx.pending
  let tx1 : TxTable StockBarRow := { committed := deleted, pending := deleted }
  match sql_query tx1.pending with
  | .ok rows => ({ committed := rows, pending := rows }, none)
  | .error e => ({ committed := tx1.committed, pending := tx1.committed }, some e)

/-- Computation of expected_minutes in run_backfill_fact_stock_bars_api
(functions.py line 146): int((end_time - start_time).total_seconds() // 60),
a floor division of the signed second difference. -/
def expected_minutes (start_time end_time : Int) : Int :=
  Int.fdiv (end_time - start_time) 60

/-- Per-symbol count of the counted_bars CTE (functions.py lines 149-158):
non-imputed fact_stock_bars rows with created_at in the half-open range. -/
def nonImputedCount (bars : List StockBarRow) (sym : String) (start_time end_time : Int) :
    Nat :=
  (bars.filter (fun r =>
    r.symbol == sym && decide (start_time ≤ r.createdAt) &&
      decide (r.createdAt < end_time) && (r.isImputed == false))).length

/-- Embedding of run_backfill_fact_stock_bars_api (functions.py lines
142-176): select the dim_stocks symbols whose coalesced bar count is
strictly below expected_minutes. The returned list is the symbols_list the
function passes to the external fetch collaborator get_stock_data. -/
def run_backfill_fact_stock_bars_api (stocks : List String) (bars : List StockBarRow)
    (start_time end_time : Int) : List String :=
  stocks.filter (fun sym =>
    decide ((nonImputedCount bars sym start_time end_time : Int) <
      expected_minutes start_time end_time))

/-- The DELETE shared by the three StockBarAggregate operations
(functions.py lines 195-199, 235-239 and 273-277): remove rows with
start_time <= created_at < end_time and the given aggregation. -/
def agg_delete_step (start_time end_time : Int) (aggregation : String)
    (rows : List StockBarAggRow) : List StockBarAggRow :=
  rows.filter (fun r =>
    !(decide (start_time ≤ r.createdAt) && decide (r.createdAt < end_time) &&
      (r.aggregation == aggregation)))

/-- Embedding of run_agg_stock_bars_candles (functions.py lines 179-216):
delete, commit, recompute through the opaque candle SQL, commit; on an
exception, rollback and re-raise. -/
def run_agg_stock_bars_candles
    (sql_query : List StockBarAggRow → Except String (List StockBarAggRow))
    (start_time end_time : Int) (aggregation : String) (tx : TxTable StockBarAggRow) :
    TxTable StockBarAggRow × Option String :=
  let deleted := agg_delete_step start_time end_time aggregation tx.pending
  let tx1 : TxTable StockBarAggRow := { committed := deleted, pending := deleted }
  match sql_query tx1.pending with
  | .ok rows => ({ committed := rows, pending := rows }, none)
  | .error e => ({ committed := tx1.committed, pending := tx1.committed }, some e)

/-- Embedding of run_agg_backfill_stock_bars (functions.py lines 219-255):
same delete-then-recompute shape with the aggregation backfill SQL. -/
def run_agg_backfill_stock_bars
    (sql_query : List StockBarAggRow → Except String (List StockBarAggRow))
    (start_time end_time : Int) (aggregation : String) (tx : TxTable StockBarAggRow) :
    TxTable StockBarAggRow × Option String :=
  let deleted := agg_delete_step start_time end_time aggregation tx.pending
  let tx1 : TxTable StockBarAggRow := { committed := deleted, pending := deleted }
  match sql_query tx1.pending with
  | .ok rows => ({ committed := rows, pending := rows }, none)
  | .error e => ({ committed := tx1.committed, pending := tx1.committed }, some e)

/-- Embedding of run_agg_stock_bars (functions.py lines 258-294): same
delete-then-recompute shape with the generic aggregation SQL. -/
def run_agg_stock_bars
    (sql_query : List StockBarAggRow → Except String (List StockBarAggRow))
    (start_time end_time : Int) (aggregation : String) (tx : TxTable StockBarAggRow) :
    TxTable StockBarAggRow × Option String :=
  let deleted := agg_delete_step start_time end_time aggregation tx.pending
  let tx1 : TxTable StockBarAggRow := { committed := deleted, pending := deleted }
  match sql_query tx1.pending with
  | .ok rows => ({ committed := rows, pending := rows }, none)
  | .error e => ({ committed := tx1.committed, pending := tx1.committed }, some e)

/-- Epoch seconds of 2025-04-01T00:00:00. -/
def apr1_0000 : Int := 1743465600

/-- Epoch seconds of 2025-04-01T01:00:00. -/
def apr1_0100 : Int := 1743469200

/-- Predicate used to state the amended C2: the symbol is nonempty and its
first character is an uppercase ASCII letter. -/
def firstUpper (s : String) : Bool :=
  match s.data with
  | [] => false
  | c :: _ => decide ('A' ≤ c) && decide (c ≤ 'Z')

/-- Characters that are metacharacters of a Postgres LIKE pattern. -/
def likeMeta (c : Char) : Bool := c == '%' || c == '_' || c == '\\'

/-- Concrete imputed bar used by counterexamples and witnesses. -/
def sampleImputedBar : StockBarRow :=
  { symbol := "AAPL", createdAt := 5, isImputed := true }

/-- Concrete non-imputed bar used by witnesses. -/
def sampleRealBar : StockBarRow :=
  { symbol := "AAPL", createdAt := 5, isImputed := false }

/-- Concrete bar for a second symbol, used by witnesses. -/
def sampleMsftBar : StockBarRow :=
  { symbol := "MSFT", createdAt := 7, isImputed := false }

/-- Concrete five-minute aggregate row, used by witnesses. -/
def sampleAgg5min : StockBarAggRow :=
  { symbol := "AAPL", createdAt := 5, aggregation := "5min" }

/-- Concrete hourly aggregate row, used by witnesses. -/
def sampleAgg1hour : StockBarAggRow :=
  { symbol := "AAPL", createdAt := 5, aggregation := "1hour" }

theorem lexLe_cons_iff (a b : Char) (as bs : List Char) :
    lexLe (a :: as) (b :: bs) = true ↔ a < b ∨ (a = b ∧ lexLe as bs = true) := by
  by_cases h1 : a < b
  · simp [lexLe, h1]
  · by_cases h2 : b < a
    · have hne : ¬ a = b := by rintro rfl; exact h2.ne rfl
      simp [lexLe, h1, h2, hne]
    · have heq : a = b := le_antisymm (not_lt.mp h2) (not_lt.mp h1)
      simp [lexLe, h1, h2, heq]

theorem lexLt_cons_iff (a b : Char) (as bs : List Char) :
    lexLt (a :: as) (b :: bs) = true ↔ a < b ∨ (a = b ∧ lexLt as bs = true) := by
  by_cases h1 : a < b
  · simp [lexLt, h1]
  · by_cases h2 : b < a
    · have hne : ¬ a = b := by rintro rfl; exact h2.ne rfl
      simp [lexLt, h1, h2, hne]
    · have heq : a = b := le_antisymm (not_lt.mp h2) (not_lt.mp h1)
      simp [lexLt, h1, h2, heq]

theorem lexLe_total : ∀ as bs : List Char, lexLe as bs = true ∨ lexLe bs as = true
  | [], _ => Or.inl rfl
  | _ :: _, [] => Or.inr rfl
  | a :: as, b :: bs => by
    rcases lt_trichotomy a b with h | h | h
    · exact Or.inl ((lexLe_cons_iff a b as bs).mpr (Or.inl h))
    · rcases lexLe_total as bs with h2 | h2
      · exact Or.inl ((lexLe_cons_iff a b as bs).mpr (Or.inr ⟨h, h2⟩))
      · exact Or.inr ((lexLe_cons_iff b a bs as).mpr (Or.inr ⟨h.symm, h2⟩))
    · exact Or.inr ((lexLe_cons_iff b a bs as).mpr (Or.inl h))

theorem lexLe_trans : ∀ as bs cs : List Char,
    lexLe as bs = true → lexLe bs cs = true → lexLe as cs = true
  | [], _, _, _, _ => rfl
  | a :: as, [], _, h1, _ => by simp [lexLe] at h1
  | a :: as, b :: bs, [], _, h2 => by simp [lexLe] at h2
  | a :: as, b :: bs, c :: cs, h1, h2 => by
    rcases (lexLe_cons_iff a b as bs).mp h1 with hab | ⟨hab, h1'⟩ <;>
      rcases (lexLe_cons_iff b c bs cs).mp h2 with hbc | ⟨hbc, h2'⟩
    · exact (lexLe_cons_iff a c as cs).mpr (Or.inl (lt_trans hab hbc))
    · exact (lexLe_cons_iff a c as cs).mpr (Or.inl (hbc ▸ hab))
    · exact (lexLe_cons_iff a c as cs).mpr (Or.inl (hab ▸ hbc))
    · exact (lexLe_cons_iff a c as cs).mpr
        (Or.inr ⟨hab.trans hbc, lexLe_trans as bs cs h1' h2'⟩)

theorem lexLt_iff_le_ne : ∀ as bs : List Char,
    lexLt as bs = true ↔ lexLe as bs = true ∧ as ≠ bs
  | [], [] => by simp [lexLt, lexLe]
  | [], _ :: _ => by simp [lexLt, lexLe]
  | _ :: _, [] => by simp [lexLt, lexLe]
  | a :: as, b :: bs => by
    rw [lexLt_cons_iff, lexLe_cons_iff]
    constructor
    · rintro (h | ⟨rfl, h⟩)
      · exact ⟨Or.inl h, by simp; rintro rfl; exact absurd rfl h.ne⟩
      · rcases (lexLt_iff_le_ne as bs).mp h with ⟨h1, h2⟩
        exact ⟨Or.inr ⟨rfl, h1⟩, by simpa using h2⟩
    · rintro ⟨h | ⟨rfl, h⟩, hne⟩
      · exact Or.inl h
      · refine Or.inr ⟨rfl, (lexLt_iff_le_ne as bs).mpr ⟨h, ?_⟩⟩
        simpa using hne

instance : IsTotal String strLe where
  total a b := lexLe_total a.data b.data

instance : IsTrans String strLe where
  trans a b c h1 h2 := lexLe_trans a.data b.data c.data h1 h2

theorem strLt_iff_le_ne (a b : String) : strLt a b ↔ strLe a b ∧ a ≠ b := by
  unfold strLt strLe
  rw [lexLt_iff_le_ne]
  constructor
  · rintro ⟨h1, h2⟩
    exact ⟨h1, fun h => h2 (by simp [String.ext_iff] at h; exact h)⟩
  · rintro ⟨h1, h2⟩
    exact ⟨h1, fun h => h2 (String.ext h)⟩

theorem strLe_single_iff (a b : Char) :
    strLe (String.mk [a]) (String.mk [b]) ↔ a ≤ b := by
  unfold strLe
  show lexLe [a] [b] = true ↔ _
  rw [lexLe_cons_iff]
  simp [le_iff_lt_or_eq, lexLe]

theorem string_mk_single_inj (a b : Char) : String.mk [a] = String.mk [b] ↔ a = b := by
  simp [String.ext_iff]

theorem char_toUpper_of_upper (c : Char) (h2 : c ≤ 'Z') : c.toUpper = c := by
  have h90 : c.toNat ≤ 90 := by
    rw [Char.le_def, UInt32.le_def, BitVec.le_def] at h2
    exact h2
  simp only [Char.toUpper]
  rw [if_neg]
  omega

theorem strLe_head_le (a b : Char) (as bs : List Char)
    (h : strLe (String.mk (a :: as)) (String.mk (b :: bs))) : a ≤ b := by
  unfold strLe at h
  rcases (lexLe_cons_iff a b as bs).mp h with h | ⟨h, _⟩
  · exact le_of_lt h
  · exact le_of_eq h

theorem distinctOnSymbolGo_mem_symbol : ∀ (rows : List StockBarRow) (seen : List String)
    (sym : String),
    (∃ r ∈ distinctOnSymbolGo seen rows, r.symbol = sym) ↔
      sym ∉ seen ∧ ∃ r ∈ rows, r.symbol = sym
  | [], seen, sym => by simp [distinctOnSymbolGo]
  | r :: rest, seen, sym => by
    by_cases h : r.symbol ∈ seen
    · rw [distinctOnSymbolGo, if_pos h, distinctOnSymbolGo_mem_symbol rest seen sym]
      simp only [List.mem_cons]
      constructor
      · rintro ⟨hns, x, hx, rfl⟩
        exact ⟨hns, x, Or.inr hx, rfl⟩
      · rintro ⟨hns, x, rfl | hx, rfl⟩
        · exact absurd h hns
        · exact ⟨hns, x, hx, rfl⟩
    · rw [distinctOnSymbolGo, if_neg h]
      simp only [List.mem_cons]
      constructor
      · rintro ⟨x, rfl | hx, rfl⟩
        · exact ⟨h, x, Or.inl rfl, rfl⟩
        · rcases (distinctOnSymbolGo_mem_symbol rest (r.symbol :: seen) x.symbol).mp
            ⟨x, hx, rfl⟩ with ⟨hns, y, hy, hsy⟩
          exact ⟨fun hc => hns (List.mem_cons_of_mem _ hc), y, Or.inr hy, hsy⟩
      · rintro ⟨hns, x, rfl | hx, rfl⟩
        · exact ⟨x, Or.inl rfl, rfl⟩
        · by_cases hrx : x.symbol = r.symbol
          · exact ⟨r, Or.inl rfl, hrx ▸ rfl⟩
          · rcases (distinctOnSymbolGo_mem_symbol rest (r.symbol :: seen) x.symbol).mpr
              ⟨by simp [hrx, hns], x, hx, rfl⟩ with ⟨y, hy, hsy⟩
            exact ⟨y, Or.inr hy, hsy⟩

theorem distinctOnSymbolGo_nodup_symbols : ∀ (rows : List StockBarRow) (seen : List String),
    ((distinctOnSymbolGo seen rows).map (fun r => r.symbol)).Nodup
  | [], seen => by simp [distinctOnSymbolGo]
  | r :: rest, seen => by
    by_cases h : r.symbol ∈ seen
    · rw [distinctOnSymbolGo, if_pos h]
      exact distinctOnSymbolGo_nodup_symbols rest seen
    · rw [distinctOnSymbolGo, if_neg h]
      refine List.nodup_cons.mpr
        ⟨?_, distinctOnSymbolGo_nodup_symbols rest (r.symbol :: seen)⟩
      intro hc
      rcases List.mem_map.mp hc with ⟨x, hx, hsx⟩
      rcases (distinctOnSymbolGo_mem_symbol rest (r.symbol :: seen) r.symbol).mp
        ⟨x, hx, hsx⟩ with ⟨hns, _⟩
      exact hns (List.mem_cons_self _ _)

theorem likeMatch_percent_nil (s : List Char) : likeMatch ['%'] s = true := by
  have h0 : ([] : List Char) ∈ s.tails := (List.mem_tails _ _).mpr ⟨s, List.append_nil s⟩
  simp only [likeMatch]
  exact List.any_eq_true.mpr ⟨[], h0, rfl⟩

theorem likeMatch_append_percent : ∀ (p : List Char), (∀ c ∈ p, likeMeta c = false) →
    ∀ s : List Char, likeMatch (p ++ ['%']) s = p.isPrefixOf s
  | [], _, s => by simpa [List.isPrefixOf] using likeMatch_percent_nil s
  | a :: p, hp, s => by
    have ha := hp a (List.mem_cons_self a p)
    have hp' : ∀ c ∈ p, likeMeta c = false := fun c hc => hp c (List.mem_cons_of_mem a hc)
    have ha1 : ¬ a = '%' := by intro hEq; rw [hEq] at ha; simp [likeMeta] at ha
    have ha2 : ¬ a = '_' := by intro hEq; rw [hEq] at ha; simp [likeMeta] at ha
    have ha3 : ¬ a = '\\' := by intro hEq; rw [hEq] at ha; simp [likeMeta] at ha
    cases s with
    | nil =>
      rw [List.cons_append]
      rw [likeMatch.eq_8 a (p ++ ['%']) ha1 ha2 (fun h _ => ha3 h) (fun _ _ h _ => ha3 h)]
      simp [List.isPrefixOf]
    | cons c cs =>
      rw [List.cons_append]
      rw [likeMatch.eq_9 a (p ++ ['%']) c cs ha1 ha2 (fun h _ => ha3 h) (fun _ _ h _ => ha3 h)]
      simp [List.isPrefixOf, likeMatch_append_percent p hp' cs]

theorem expected_minutes_nonpos (s e : Int) (h : e ≤ s) : expected_minutes s e ≤ 0 := by
  unfold expected_minutes
  rcases hd : e - s with n | m
  · rw [Int.ofNat_eq_natCast] at hd
    have hn : n = 0 := by omega
    subst hn
    decide
  · have : Int.fdiv (Int.negSucc m) 60 = Int.negSucc (m / 60) := rfl
    rw [this]
    exact le_of_lt (Int.negSucc_lt_zero _)

/-- Claim C8: get_active_symbols returns the distinct set of symbols present
in StockBar (order unspecified, no duplicates); it returns the empty list on
an empty table without raising, and the handler turns any query failure into
the empty list instead of propagating. -/
theorem C8_get_active_symbols_spec :
    (∀ (rows : List StockBarRow) (sym : String),
      sym ∈ get_active_symbols (.ok rows) ↔ ∃ r ∈ rows, r.symbol = sym) ∧
    (∀ rows : List StockBarRow, (get_active_symbols (.ok rows)).Nodup) ∧
    get_active_symbols (.ok []) = [] ∧
    (∀ msg : String, get_active_symbols (.error msg) = []) := by
  refine ⟨?_, ?_, rfl, fun _ => rfl⟩
  · intro rows sym
    show sym ∈ (distinctOnSymbolGo [] rows).map (fun r => r.symbol) ↔ _
    rw [List.mem_map]
    constructor
    · rintro ⟨x, hx, rfl⟩
      rcases (distinctOnSymbolGo_mem_symbol rows [] x.symbol).mp ⟨x, hx, rfl⟩ with ⟨_, hex⟩
      exact hex
    · intro hex
      rcases (distinctOnSymbolGo_mem_symbol rows [] sym).mpr ⟨by simp, hex⟩ with ⟨y, hy, hsy⟩
      exact ⟨y, hy, hsy⟩
  · intro rows
    exact distinctOnSymbolGo_nodup_symbols rows []

/-- Claim C5: the delete step of run_backfill_fact_stock_bars removes only
StockBar rows with created_at in the half-open range and is_imputed true:
every non-imputed row and every row outside the range keeps its exact
multiplicity, every removed row matched the filter, and nothing new
appears. -/
theorem C5_fact_delete_only_imputed_in_range (s e : Int) (rows : List StockBarRow) :
    (∀ r : StockBarRow, r.isImputed = false ∨ r.createdAt < s ∨ e ≤ r.createdAt →
      (fact_delete_step s e rows).count r = rows.count r) ∧
    (∀ r : StockBarRow, r ∈ rows → r ∉ fact_delete_step s e rows →
      s ≤ r.createdAt ∧ r.createdAt < e ∧ r.isImputed = true) ∧
    (∀ r : StockBarRow, r ∈ fact_delete_step s e rows → r ∈ rows) := by
  refine ⟨?_, ?_, fun r hr => List.mem_of_mem_filter hr⟩
  · intro r hr
    apply List.count_filter
    rcases hr with h | h | h
    · simp [h]
    · have hd1 : decide (s ≤ r.createdAt) = false := decide_eq_false (by omega)
      simp [hd1]
    · have hd2 : decide (r.createdAt < e) = false := decide_eq_false (by omega)
      simp [hd2]
  · intro r hmem hnot
    have hp : ¬ ((!(decide (s ≤ r.createdAt) && decide (r.createdAt < e) &&
        r.isImputed)) = true) := by
      intro hp
      exact hnot (List.mem_filter.mpr ⟨hmem, hp⟩)
    simp at hp
    tauto

/-- Witness for C5 at a concrete non-imputed row that survives the delete. -/
theorem C5_fact_delete_only_imputed_in_range_witness :
    (sampleRealBar.isImputed = false ∨ sampleRealBar.createdAt < 0 ∨
      (10 : Int) ≤ sampleRealBar.createdAt) ∧
    (fact_delete_step 0 10 [sampleImputedBar, sampleRealBar]).count sampleRealBar =
      [sampleImputedBar, sampleRealBar].count sampleRealBar :=
  ⟨Or.inl rfl,
    (C5_fact_delete_only_imputed_in_range 0 10 [sampleImputedBar, sampleRealBar]).1
      sampleRealBar (Or.inl rfl)⟩

/-- Claim C6: the delete step of run_agg_stock_bars removes no
StockBarAggregate row of a different aggregation and no row outside the
half-open range: such rows keep their exact multiplicity, every removed row
matched the range and the aggregation, and nothing new appears. -/
theorem C6_agg_delete_isolation (s e : Int) (agg : String) (rows : List StockBarAggRow) :
    (∀ r : StockBarAggRow, r.aggregation ≠ agg ∨ r.createdAt < s ∨ e ≤ r.createdAt →
      (agg_delete_step s e agg rows).count r = rows.count r) ∧
    (∀ r : StockBarAggRow, r ∈ rows → r ∉ agg_delete_step s e agg rows →
      s ≤ r.createdAt ∧ r.createdAt < e ∧ r.aggregation = agg) ∧
    (∀ r : StockBarAggRow, r ∈ agg_delete_step s e agg rows → r ∈ rows) := by
  refine ⟨?_, ?_, fun r hr => List.mem_of_mem_filter hr⟩
  · intro r hr
    apply List.count_filter
    rcases hr with h | h | h
    · simp [h]
    · have hd1 : decide (s ≤ r.createdAt) = false := decide_eq_false (by omega)
      simp [hd1]
    · have hd2 : decide (r.createdAt < e) = false := decide_eq_false (by omega)
      simp [hd2]
  · intro r hmem hnot
    have hp : ¬ ((!(decide (s ≤ r.createdAt) && decide (r.createdAt < e) &&
        (r.aggregation == agg))) = true) := by
      intro hp
      exact hnot (List.mem_filter.mpr ⟨hmem, hp⟩)
    simp at hp
    tauto

/-- Witness for C6: an hourly row is untouched by a five-minute delete over
a range containing it. -/
theorem C6_agg_delete_isolation_witness :
    (sampleAgg1hour.aggregation ≠ "5min" ∨ sampleAgg1hour.createdAt < 0 ∨
      (10 : Int) ≤ sampleAgg1hour.createdAt) ∧
    (agg_delete_step 0 10 "5min" [sampleAgg1hour]).count sampleAgg1hour =
      [sampleAgg1hour].count sampleAgg1hour :=
  ⟨Or.inl (by decide),
    (C6_agg_delete_isolation 0 10 "5min" [sampleAgg1hour]).1 sampleAgg1hour
      (Or.inl (by decide))⟩

/-- Claim C3: run_backfill_fact_stock_bars_api selects exactly the
dim_stocks symbols whose count of non-imputed StockBar rows with created_at
in the half-open range is strictly below expected_minutes; symbols with a
count at or above expected_minutes are not selected, symbols with zero rows
coalesce to zero and are selected whenever expected_minutes is positive,
and the hour from 2025-04-01T00:00 to 2025-04-01T01:00 gives
expected_minutes = 60. -/
theorem C3_api_selects_below_expected :
    (∀ (stocks : List String) (bars : List StockBarRow) (s e : Int) (sym : String),
      sym ∈ run_backfill_fact_stock_bars_api stocks bars s e ↔
        sym ∈ stocks ∧ (nonImputedCount bars sym s e : Int) < expected_minutes s e) ∧
    (∀ (stocks : List String) (bars : List StockBarRow) (s e : Int) (sym : String),
      sym ∈ stocks → expected_minutes s e ≤ (nonImputedCount bars sym s e : Int) →
        sym ∉ run_backfill_fact_stock_bars_api stocks bars s e) ∧
    (∀ (stocks : List String) (bars : List StockBarRow) (s e : Int) (sym : String),
      sym ∈ stocks → nonImputedCount bars sym s e = 0 → 0 < expected_minutes s e →
        sym ∈ run_backfill_fact_stock_bars_api stocks bars s e) ∧
    expected_minutes apr1_0000 apr1_0100 = 60 := by
  have hmem : ∀ (stocks : List String) (bars : List StockBarRow) (s e : Int) (sym : String),
      sym ∈ run_backfill_fact_stock_bars_api stocks bars s e ↔
        sym ∈ stocks ∧ (nonImputedCount bars sym s e : Int) < expected_minutes s e := by
    intro stocks bars s e sym
    unfold run_backfill_fact_stock_bars_api
    rw [List.mem_filter]
    simp
  refine ⟨hmem, ?_, ?_, by decide⟩
  · intro stocks bars s e sym hs hge hin
    rcases (hmem stocks bars s e sym).mp hin with ⟨_, hlt⟩
    omega
  · intro stocks bars s e sym hs h0 hpos
    refine (hmem stocks bars s e sym).mpr ⟨hs, ?_⟩
    rw [h0]
    exact_mod_cast hpos

/-- Witness for C3: a symbol with zero rows over the April hour is selected
for re-fetch. -/
theorem C3_api_selects_below_expected_witness :
    ("MSFT" ∈ (["MSFT"] : List String)) ∧
    nonImputedCount [] "MSFT" apr1_0000 apr1_0100 = 0 ∧
    (0 : Int) < expected_minutes apr1_0000 apr1_0100 ∧
    "MSFT" ∈ run_backfill_fact_stock_bars_api ["MSFT"] [] apr1_0000 apr1_0100 :=
  ⟨by decide, rfl, by decide,
    C3_api_selects_below_expected.2.2.1 ["MSFT"] [] apr1_0000 apr1_0100 "MSFT"
      (by decide) rfl (by decide)⟩

/-- Claim C9: with end_time at or before start_time, expected_minutes is
nonpositive, every coalesced count fails the strict comparison, and the
symbol list handed to get_stock_data is empty. -/
theorem C9_api_empty_when_range_empty (stocks : List String) (bars : List StockBarRow)
    (s e : Int) (h : e ≤ s) :
    run_backfill_fact_stock_bars_api stocks bars s e = [] := by
  have hexp := expected_minutes_nonpos s e h
  unfold run_backfill_fact_stock_bars_api
  rw [List.filter_eq_nil_iff]
  intro sym _
  simp only [decide_eq_true_eq, not_lt]
  have hnn : (0 : Int) ≤ (nonImputedCount bars sym s e : Int) := Int.natCast_nonneg _
  omega

/-- Witness for C9 at a reversed concrete range. -/
theorem C9_api_empty_when_range_empty_witness :
    (50 : Int) ≤ 100 ∧ run_backfill_fact_stock_bars_api ["AAPL"] [] 100 50 = [] :=
  ⟨by decide, C9_api_empty_when_range_empty ["AAPL"] [] 100 50 (by decide)⟩

/-- Claim C4: insert_new_stocks inserts exactly the distinct StockBar
symbols not already in Stock: starting from a duplicate-free Stock table the
result is duplicate-free, contains a symbol iff it was a Stock symbol or a
StockBar symbol, gives every StockBar symbol count one, is unchanged by a
second call with the same StockBar table, and keeps the existing rows as an
untouched initial segment. -/
theorem C4_insert_new_stocks_idempotent_monotone (stocks : List String)
    (bars : List StockBarRow) (hnd : stocks.Nodup) :
    (insert_new_stocks bars stocks).Nodup ∧
    (∀ sym, sym ∈ insert_new_stocks bars stocks ↔
      sym ∈ stocks ∨ ∃ r ∈ bars, r.symbol = sym) ∧
    (∀ sym, (∃ r ∈ bars, r.symbol = sym) →
      (insert_new_stocks bars stocks).count sym = 1) ∧
    insert_new_stocks bars (insert_new_stocks bars stocks) = insert_new_stocks bars stocks ∧
    List.IsPrefix stocks (insert_new_stocks bars stocks) := by
  have hmem : ∀ sym, sym ∈ insert_new_stocks bars stocks ↔
      sym ∈ stocks ∨ ∃ r ∈ bars, r.symbol = sym := by
    intro sym
    unfold insert_new_stocks
    rw [List.mem_append, List.mem_filter]
    simp only [List.mem_dedup, List.mem_map, Bool.not_eq_eq_eq_not, Bool.not_true,
      decide_eq_false_iff_not]
    constructor
    · rintro (hs | ⟨⟨r, hr, rfl⟩, _⟩)
      · exact Or.inl hs
      · exact Or.inr ⟨r, hr, rfl⟩
    · rintro (hs | ⟨r, hr, rfl⟩)
      · exact Or.inl hs
      · by_cases hin : r.symbol ∈ stocks
        · exact Or.inl hin
        · exact Or.inr ⟨⟨r, hr, rfl⟩, hin⟩
  have hnodup : (insert_new_stocks bars stocks).Nodup := by
    unfold insert_new_stocks
    refine List.Nodup.append hnd ((List.nodup_dedup _).filter _) ?_
    intro a ha hb
    rw [List.mem_filter] at hb
    have hb2 := hb.2
    simp only [Bool.not_eq_eq_eq_not, Bool.not_true, decide_eq_false_iff_not] at hb2
    exact hb2 ha
  refine ⟨hnodup, hmem, ?_, ?_, ⟨_, rfl⟩⟩
  · intro sym hex
    exact List.count_eq_one_of_mem hnodup ((hmem sym).mpr (Or.inr hex))
  · have hm1 : ∀ sym, (∃ r ∈ bars, r.symbol = sym) → sym ∈ insert_new_stocks bars stocks :=
      fun sym hx => (hmem sym).mpr (Or.inr hx)
    set s1 := insert_new_stocks bars stocks with hs1
    show insert_new_stocks bars s1 = s1
    unfold insert_new_stocks
    have hfil : ((bars.map (fun r => r.symbol)).dedup.filter
        (fun s => !(decide (s ∈ s1)))) = [] := by
      rw [List.filter_eq_nil_iff]
      intro a ha
      rcases List.mem_map.mp (List.mem_dedup.mp ha) with ⟨r, hr, rfl⟩
      have hin : r.symbol ∈ s1 := hm1 _ ⟨r, hr, rfl⟩
      simp [hin]
    rw [hfil, List.append_nil]

/-- Witness for C4 at a concrete one-symbol table. -/
theorem C4_insert_new_stocks_idempotent_monotone_witness :
    (["AAPL"] : List String).Nodup ∧ (insert_new_stocks [sampleMsftBar] ["AAPL"]).Nodup :=
  ⟨by decide, (C4_insert_new_stocks_idempotent_monotone ["AAPL"] [sampleMsftBar]
    (by decide)).1⟩

/-- Claim C1 counterexample: with one committed imputed StockBar row inside
the range and a recompute query that raises, run_backfill_fact_stock_bars
re-raises but the final committed table differs from the initial one: the
delete was committed before the recompute ran, and the rollback cannot undo
it. -/
theorem C1_counterexample :
    (run_backfill_fact_stock_bars (fun _ => .error "recompute failed") 0 10
        { committed := [sampleImputedBar], pending := [sampleImputedBar] }).2 =
      some "recompute failed" ∧
    (run_backfill_fact_stock_bars (fun _ => .error "recompute failed") 0 10
        { committed := [sampleImputedBar], pending := [sampleImputedBar] }).1.committed ≠
      [sampleImputedBar] := by
  exact ⟨rfl, by decide⟩

/-- Claim C1 amended: when the recompute step of any of the four
backfill/aggregation operations raises, the rollback undoes only the
uncommitted recompute; the delete was already committed and persists, so the
operation re-raises with the post-delete table as both committed and pending
state, not the pre-call state. -/
theorem C1_amended_delete_survives_recompute_failure (msg : String) :
    (∀ (q : List StockBarRow → Except String (List StockBarRow)) (s e : Int)
        (tx : TxTable StockBarRow),
      q (fact_delete_step s e tx.pending) = .error msg →
      run_backfill_fact_stock_bars q s e tx =
        ({ committed := fact_delete_step s e tx.pending,
           pending := fact_delete_step s e tx.pending }, some msg)) ∧
    (∀ (q : List StockBarAggRow → Except String (List StockBarAggRow)) (s e : Int)
        (agg : String) (tx : TxTable StockBarAggRow),
      q (agg_delete_step s e agg tx.pending) = .error msg →
      run_agg_stock_bars q s e agg tx =
        ({ committed := agg_delete_step s e agg tx.pending,
           pending := agg_delete_step s e agg tx.pending }, some msg)) ∧
    (∀ (q : List StockBarAggRow → Except String (List StockBarAggRow)) (s e : Int)
        (agg : String) (tx : TxTable StockBarAggRow),
      q (agg_delete_step s e agg tx.pending) = .error msg →
      run_agg_stock_bars_candles q s e agg tx =
        ({ committed := agg_delete_step s e agg tx.pending,
           pending := agg_delete_step s e agg tx.pending }, some msg)) ∧
    (∀ (q : List StockBarAggRow → Except String (List StockBarAggRow)) (s e : Int)
        (agg : String) (tx : TxTable StockBarAggRow),
      q (agg_delete_step s e agg tx.pending) = .error msg →
      run_agg_backfill_stock_bars q s e agg tx =
        ({ committed := agg_delete_step s e agg tx.pending,
           pending := agg_delete_step s e agg tx.pending }, some msg)) := by
  refine ⟨?_, ?_, ?_, ?_⟩
  · intro q s e tx h
    simp only [run_backfill_fact_stock_bars]
    rw [h]
  · intro q s e agg tx h
    simp only [run_agg_stock_bars]
    rw [h]
  · intro q s e agg tx h
    simp only [run_agg_stock_bars_candles]
    rw [h]
  · intro q s e agg tx h
    simp only [run_agg_backfill_stock_bars]
    rw [h]

/-- Witness for the amended C1 at a concrete failing recompute. -/
theorem C1_amended_delete_survives_recompute_failure_witness :
    ((fun _ : List StockBarRow => (Except.error "boom" : Except String (List StockBarRow)))
        (fact_delete_step 0 10 [sampleImputedBar]) = Except.error "boom") ∧
    run_backfill_fact_stock_bars (fun _ => Except.error "boom") 0 10
        { committed := [sampleImputedBar], pending := [sampleImputedBar] } =
      ({ committed := fact_delete_step 0 10 [sampleImputedBar],
         pending := fact_delete_step 0 10 [sampleImputedBar] }, some "boom") :=
  ⟨rfl, (C1_amended_delete_survives_recompute_failure "boom").1 _ 0 10 _ rfl⟩

theorem strLe_trans (a b c : String) (h1 : strLe a b) (h2 : strLe b c) : strLe a c :=
  lexLe_trans a.data b.data c.data h1 h2

theorem groupByStartingLetter_sorted_spec :
    ∀ (L acc : List String),
    (∀ s ∈ L, firstUpper s = true) →
    L.Pairwise strLe →
    acc.Pairwise strLt →
    (∀ a ∈ acc, ∀ s ∈ L, ∀ c, s.data.head? = some c → strLe a (String.mk [c.toUpper])) →
    ∃ out, groupByStartingLetter L acc = .ok out ∧
      out.Pairwise strLt ∧
      (∀ t, t ∈ out ↔ t ∈ acc ∨
        ∃ s ∈ L, ∃ c, s.data.head? = some c ∧ t = String.mk [c.toUpper])
  | [], acc, _, _, hacc, _ => ⟨acc, rfl, hacc, by simp⟩
  | s :: rest, acc, hL, hsort, hacc, hcross => by
    rcases hd : s.data with _ | ⟨c, cs⟩
    · have hs := hL s (List.mem_cons_self s rest)
      rw [show firstUpper s = false from by simp [firstUpper, hd]] at hs
      exact absurd hs (by simp)
    · have hs := hL s (List.mem_cons_self s rest)
      rw [show firstUpper s = (decide ('A' ≤ c) && decide (c ≤ 'Z')) from by
        simp [firstUpper, hd]] at hs
      rw [Bool.and_eq_true] at hs
      have hZ : c ≤ 'Z' := of_decide_eq_true hs.2
      have hUp : c.toUpper = c := char_toUpper_of_upper c hZ
      have hheadc : s.data.head? = some c := by rw [hd]; rfl
      have hstep : groupByStartingLetter (s :: rest) acc =
          groupByStartingLetter rest
            (if String.mk [c.toUpper] ∈ acc then acc
             else acc ++ [String.mk [c.toUpper]]) := by
        simp only [groupByStartingLetter, hd]
      rw [hUp] at hstep
      have hL' : ∀ t ∈ rest, firstUpper t = true :=
        fun t ht => hL t (List.mem_cons_of_mem s ht)
      have hsrest : rest.Pairwise strLe := (List.pairwise_cons.mp hsort).2
      have hshead : ∀ t ∈ rest, strLe s t := (List.pairwise_cons.mp hsort).1
      have hcrossS : ∀ t ∈ rest, ∀ d, t.data.head? = some d →
          strLe (String.mk [c]) (String.mk [d.toUpper]) := by
        intro t ht d hdt
        have htup := hL' t ht
        rcases he : t.data with _ | ⟨d', ds⟩
        · rw [he] at hdt; simp at hdt
        · rw [he] at hdt
          simp only [List.head?_cons, Option.some.injEq] at hdt
          subst hdt
          rw [show firstUpper t = (decide ('A' ≤ d') && decide (d' ≤ 'Z')) from by
            simp [firstUpper, he]] at htup
          rw [Bool.and_eq_true] at htup
          have hZd : d' ≤ 'Z' := of_decide_eq_true htup.2
          rw [char_toUpper_of_upper d' hZd]
          rw [strLe_single_iff]
          have hst := hshead t ht
          have hseq : s = String.mk (c :: cs) := String.ext hd
          have hteq : t = String.mk (d' :: ds) := String.ext he
          rw [hseq, hteq] at hst
          exact strLe_head_le c d' cs ds hst
      have hcrossU : ∀ a ∈ acc, strLe a (String.mk [c]) := by
        intro a ha
        have := hcross a ha s (List.mem_cons_self s rest) c hheadc
        rwa [hUp] at this
      by_cases hin : String.mk [c] ∈ acc
      · rw [if_pos hin] at hstep
        obtain ⟨out, heq, hout, hiff⟩ := groupByStartingLetter_sorted_spec rest acc
          hL' hsrest hacc
          (fun a ha t ht d hdt =>
            strLe_trans a (String.mk [c]) _ (hcrossU a ha) (hcrossS t ht d hdt))
        refine ⟨out, hstep.trans heq, hout, ?_⟩
        intro t
        rw [hiff]
        constructor
        · rintro (h | ⟨s', hs', hrest⟩)
          · exact Or.inl h
          · exact Or.inr ⟨s', List.mem_cons_of_mem s hs', hrest⟩
        · rintro (h | ⟨s', hs', d, hdt, rfl⟩)
          · exact Or.inl h
          · rcases List.mem_cons.mp hs' with rfl | hs'
            · rw [hd] at hdt
              simp only [List.head?_cons, Option.some.injEq] at hdt
              subst hdt
              exact Or.inl (by rw [hUp]; exact hin)
            · exact Or.inr ⟨s', hs', d, hdt, rfl⟩
      · rw [if_neg hin] at hstep
        have hacc' : (acc ++ [String.mk [c]]).Pairwise strLt := by
          rw [List.pairwise_append]
          refine ⟨hacc, by simp, ?_⟩
          intro a ha b hb
          rw [List.mem_singleton] at hb
          subst hb
          rw [strLt_iff_le_ne]
          exact ⟨hcrossU a ha, fun hEq => hin (hEq ▸ ha)⟩
        have hcross' : ∀ a ∈ acc ++ [String.mk [c]], ∀ t ∈ rest, ∀ d,
            t.data.head? = some d → strLe a (String.mk [d.toUpper]) := by
          intro a ha t ht d hdt
          rcases List.mem_append.mp ha with ha | ha
          · exact strLe_trans a (String.mk [c]) _ (hcrossU a ha) (hcrossS t ht d hdt)
          · rw [List.mem_singleton] at ha
            subst ha
            exact hcrossS t ht d hdt
        obtain ⟨out, heq, hout, hiff⟩ := groupByStartingLetter_sorted_spec rest
          (acc ++ [String.mk [c]]) hL' hsrest hacc' hcross'
        refine ⟨out, hstep.trans heq, hout, ?_⟩
        intro t
        rw [hiff, List.mem_append, List.mem_singleton]
        constructor
        · rintro ((h | rfl) | ⟨s', hs', hrest⟩)
          · exact Or.inl h
          · exact Or.inr ⟨s, List.mem_cons_self s rest, c, hheadc, by rw [hUp]⟩
          · exact Or.inr ⟨s', List.mem_cons_of_mem s hs', hrest⟩
        · rintro (h | ⟨s', hs', d, hdt, rfl⟩)
          · exact Or.inl (Or.inl h)
          · rcases List.mem_cons.mp hs' with rfl | hs'
            · rw [hd] at hdt
              simp only [List.head?_cons, Option.some.injEq] at hdt
              subst hdt
              exact Or.inl (Or.inr (by rw [hUp]))
            · exact Or.inr ⟨s', hs', d, hdt, rfl⟩

/-- Claim C2 counterexample: symbols are sorted before their first letters
are uppercased, so with a lowercase symbol present the output ["B", "A"] is
not the sorted sequence of distinct uppercased first letters ["A", "B"]. -/
theorem C2_counterexample :
    load_stock_table_list ["BBY", "apple"] (some "alphabetical") = ["B", "A"] ∧
    alphabetical_spec ["BBY", "apple"] = ["A", "B"] ∧
    load_stock_table_list ["BBY", "apple"] (some "alphabetical") ≠
      alphabetical_spec ["BBY", "apple"] := by
  decide

/-- Claim C2 amended: when every Stock symbol is nonempty and begins with an
uppercase ASCII letter, load_stock_table_list with alphabetical grouping
returns the strictly increasing (hence sorted and duplicate-free) sequence
of the distinct uppercased first letters of the stored symbols, not the
symbols themselves; in general the letters appear in order of first
occurrence in the sorted symbol list. On ["AAPL", "AMZN", "BBY"] the result
is ["A", "B"]. -/
theorem C2_amended_alphabetical_grouping (stocks : List String)
    (hup : ∀ s ∈ stocks, firstUpper s = true) :
    (load_stock_table_list stocks (some "alphabetical")).Pairwise strLt ∧
    (∀ t, t ∈ load_stock_table_list stocks (some "alphabetical") ↔
      ∃ s ∈ stocks, ∃ c, s.data.head? = some c ∧ t = String.mk [c.toUpper]) ∧
    load_stock_table_list ["AAPL", "AMZN", "BBY"] (some "alphabetical") = ["A", "B"] := by
  have hLup : ∀ s ∈ List.insertionSort strLe stocks, firstUpper s = true :=
    fun s hs => hup s ((List.mem_insertionSort strLe).mp hs)
  have hsorted : (List.insertionSort strLe stocks).Pairwise strLe :=
    List.sorted_insertionSort strLe stocks
  obtain ⟨out, heq, hout, hiff⟩ := groupByStartingLetter_sorted_spec
    (List.insertionSort strLe stocks) [] hLup hsorted List.Pairwise.nil (by simp)
  have hload : load_stock_table_list stocks (some "alphabetical") = out := by
    simp [load_stock_table_list, heq]
  refine ⟨hload ▸ hout, ?_, by decide⟩
  intro t
  rw [hload, hiff]
  constructor
  · rintro (h | ⟨s, hs, hrest⟩)
    · exact absurd h (List.not_mem_nil t)
    · exact ⟨s, (List.mem_insertionSort strLe).mp hs, hrest⟩
  · rintro ⟨s, hs, hrest⟩
    exact Or.inr ⟨s, (List.mem_insertionSort strLe).mpr hs, hrest⟩

/-- Witness for the amended C2 at the spec's example table. -/
theorem C2_amended_alphabetical_grouping_witness :
    (∀ s ∈ (["AAPL", "AMZN", "BBY"] : List String), firstUpper s = true) ∧
    (load_stock_table_list ["AAPL", "AMZN", "BBY"] (some "alphabetical")).Pairwise strLt :=
  ⟨by decide, (C2_amended_alphabetical_grouping ["AAPL", "AMZN", "BBY"] (by decide)).1⟩

/-- Claim C7 counterexample: a prefix consisting of the underscore LIKE
wildcard matches every nonempty symbol, so load_stock_starting_by is not a
case-sensitive prefix filter for every prefix string. -/
theorem C7_counterexample :
    load_stock_starting_by ["AAPL", "AMZN", "BBY"] "_" = ["AAPL", "AMZN", "BBY"] ∧
    load_stock_starting_by_spec ["AAPL", "AMZN", "BBY"] "_" = [] ∧
    load_stock_starting_by ["AAPL", "AMZN", "BBY"] "_" ≠
      load_stock_starting_by_spec ["AAPL", "AMZN", "BBY"] "_" := by
  decide

/-- Claim C7 amended: for every prefix free of the LIKE metacharacters
percent, underscore and backslash, load_stock_starting_by returns exactly
the Stock symbols starting with the prefix, case-sensitively; in particular
prefix "A" on ["AAPL", "AMZN", "BBY"] returns ["AAPL", "AMZN"]. -/
theorem C7_amended_prefix_filter_when_no_metachars (stocks : List String)
    (p : String) (hp : ∀ c ∈ p.data, likeMeta c = false) :
    load_stock_starting_by stocks p = load_stock_starting_by_spec stocks p ∧
    load_stock_starting_by ["AAPL", "AMZN", "BBY"] "A" = ["AAPL", "AMZN"] := by
  constructor
  · unfold load_stock_starting_by load_stock_starting_by_spec
    apply List.filter_congr
    intro s _
    exact likeMatch_append_percent p.data hp s.data
  · decide

/-- Witness for the amended C7 at the spec's example. -/
theorem C7_amended_prefix_filter_when_no_metachars_witness :
    (∀ c ∈ ("A" : String).data, likeMeta c = false) ∧
    (load_stock_starting_by ["AAPL", "AMZN", "BBY"] "A" =
        load_stock_starting_by_spec ["AAPL", "AMZN", "BBY"] "A" ∧
      load_stock_starting_by ["AAPL", "AMZN", "BBY"] "A" = ["AAPL", "AMZN"]) :=
  ⟨by decide,
    C7_amended_prefix_filter_when_no_metachars ["AAPL", "AMZN", "BBY"] "A" (by decide)⟩

theorem groupByStartingLetter_error_of_empty : ∀ (L acc : List String), "" ∈ L →
    groupByStartingLetter L acc = .error ()
  | [], _, h => absurd h (List.not_mem_nil _)
  | s :: rest, acc, h => by
    rcases List.mem_cons.mp h with hs | h
    · subst hs
      rfl
    · rcases hd : s.data with _ | ⟨c, cs⟩
      · simp only [groupByStartingLetter, hd]
      · simp only [groupByStartingLetter, hd]
        exact groupByStartingLetter_error_of_empty rest _ h

/-- Claim C10: if any Stock symbol is the empty string, the alphabetical
grouping indexes its first character, raises, the handler catches the
exception, and load_stock_table_list returns the empty list, discarding the
letters of all non-empty symbols too. -/
theorem C10_empty_symbol_empties_alphabetical (stocks : List String) (h : "" ∈ stocks) :
    load_stock_table_list stocks (some "alphabetical") = [] := by
  have herr := groupByStartingLetter_error_of_empty (List.insertionSort strLe stocks) []
    ((List.mem_insertionSort strLe).mpr h)
  simp [load_stock_table_list, herr]

/-- Witness for C10: one empty symbol wipes the whole grouped result. -/
theorem C10_empty_symbol_empties_alphabetical_witness :
    ("" ∈ (["AAPL", ""] : List String)) ∧
    load_stock_table_list ["AAPL", ""] (some "alphabetical") = [] :=
  ⟨by decide, C10_empty_symbol_empties_alphabetical ["AAPL", ""] (by decide)⟩
